import Mathlib

/-!
# Verification of the i18n registration/resolution engine

Shallow embedding of the core engine (`src/base.ts`, `src/utils.ts`,
`src/events.ts`, `src/errors.ts`): dotted-path utilities, the shared
resolver state (`SharedSingleton`), per-namespace registries
(`I18nRegistry`), recursive cross-namespace value resolution with
cycle detection (`findValue`), the resolution cache, the unresolved-key
set, and change-notification propagation for borrowed keys.

Modelling conventions:

* `TValue` is instantiated with `String`; the JavaScript truthiness check
  on values (`if (value)`) becomes `v ≠ ""`.
* JavaScript `Map`s become insertion-ordered association lists
  (`List (String × α)`); `Map.set` replaces in place, `Map.delete`
  filters, preserving order, exactly as JS `Map` iteration order does.
* A registry object is identified by its namespace string (the
  `_namespaces` map stores at most one registry per namespace, so this
  is injective on live registries).
* The error sink (`errorHandle`) appends a structured record to an
  `errors` log carried in the state.  The `message` text of
  `TErrorDetail` is pure formatting and is not modelled; `code`,
  `namespace` and `key` are.
* The per-key change listeners installed by `use` are closures in the
  source; each is fully determined by its subscription scope, owning
  registry, owning key and watched suffix, so subscriptions are
  modelled as a global list of `Sub` records in subscription order.
* Recursion that the source bounds only dynamically (the visited
  context in `findValue`, and listener-driven `changeKey` cascades) is
  given an explicit fuel parameter; `none` means the fuel ran out,
  which is distinct from every result the source can produce.
-/

/-! ## Path utilities (`src/utils.ts`) -/

/-- Character-level splitter behind `String.split('.')`:
`splitDotCh "a.b".data = [['a'],['b']]`, and `splitDotCh [] = [[]]`
exactly as `''.split('.') = ['']`. -/
def splitDotCh : List Char → List (List Char)
  | [] => [[]]
  | c :: rest =>
    match splitDotCh rest with
    | [] => []
    | s :: ss => if c = '.' then [] :: s :: ss else (c :: s) :: ss

/-- JS `fullKey.split('.')` for the dot separator. -/
def splitDot (s : String) : List String :=
  (splitDotCh s.data).map String.mk

/-- Character-level `Array.prototype.join('.')`. -/
def joinDotCh : List (List Char) → List Char
  | [] => []
  | [s] => s
  | s :: rest => s ++ '.' :: joinDotCh rest

/-- JS `path.join('.')`. -/
def joinDot (l : List String) : String :=
  String.mk (joinDotCh (l.map String.data))

/-- `concatNamespaceWithKey`: joins a non-null, non-empty namespace to the
key with a dot; a null (or empty, JS-falsy) namespace yields the bare key. -/
def concatNamespaceWithKey : Option String → String → String
  | none, key => key
  | some ns, key => if ns = "" then key else ns ++ "." ++ key

/-- `collectNamespaceKeyPairs(path, index)`: pairs
`(path[0..i).join('.'), path[i..].join('.'))` for `i = index+1 … path.length-1`. -/
def collectNamespaceKeyPairs (path : List String) (index : Nat) : List (String × String) :=
  ((List.range path.length).drop (index + 1)).map fun i =>
    (joinDot (path.take i), joinDot (path.drop i))

/-- `splitKeyByNamespace(fullKey)`: every `(ancestorNamespace, suffixKey)`
split of a full key, shortest ancestor first. -/
def splitKeyByNamespace (fullKey : String) : List (String × String) :=
  collectNamespaceKeyPairs (splitDot fullKey) 0

/-- `splitKeyIntoParts(fullKey)`: all cumulative dotted prefixes of a key. -/
def splitKeyIntoParts (fullKey : String) : List String :=
  let path := splitDot fullKey
  (List.range path.length).map fun i => joinDot (path.take (i + 1))

/-- Whether the character list contains two consecutive dots. -/
def hasDoubleDot : List Char → Bool
  | '.' :: '.' :: _ => true
  | _ :: rest => hasDoubleDot rest
  | [] => false

/-- `testNamespacePath(name)`: non-empty, no leading/trailing dot, no `..`
(the regex `(\.\.)|^\.|\.$` must not match). -/
def testNamespacePath (name : String) : Bool :=
  match name.data with
  | [] => false
  | c :: rest =>
    c ≠ '.' && (c :: rest).getLast? ≠ some '.' && !hasDoubleDot (c :: rest)

/-! ## Association-list helpers (JS `Map` / `Set` semantics) -/

/-- `Map.get`. -/
def alGet {α : Type} : List (String × α) → String → Option α
  | [], _ => none
  | p :: rest, k => if p.1 == k then some p.2 else alGet rest k

/-- `Map.set`: replaces in place when the key exists (keeping the entry's
position, as a JS `Map` does), else appends. -/
def alSet {α : Type} : List (String × α) → String → α → List (String × α)
  | [], k, v => [(k, v)]
  | p :: rest, k, v => if p.1 == k then (k, v) :: rest else p :: alSet rest k v

/-- `Map.delete`. -/
def alDel {α : Type} (l : List (String × α)) (k : String) : List (String × α) :=
  l.filter fun p => !(p.1 == k)

/-- `Set.add`: appends when absent. -/
def setAdd (l : List String) (k : String) : List String :=
  if l.contains k then l else l ++ [k]

/-- `Set.delete`. -/
def setDel (l : List String) (k : String) : List String :=
  l.filter fun x => !(x == k)

/-! ## Data model (`src/base.ts`, `src/errors.ts`) -/

/-- A `TErrorDetail` record, minus the purely textual `message`. -/
structure ErrD where
  code : Nat
  namespace? : Option String
  key : String
deriving DecidableEq, Repr

/-- `errorMessages.UnregisteredLocaleError`. -/
def unregisteredLocaleErr (locale : String) : ErrD := ⟨1, none, locale⟩
/-- `errorMessages.NamespaceError`. -/
def namespaceErr (ns : Option String) : ErrD := ⟨2, ns, ""⟩
/-- `errorMessages.KeyError`. -/
def keyErr (ns : Option String) (key : String) : ErrD := ⟨3, ns, key⟩
/-- `errorMessages.IntersectionNsError` (other namespace and offending key
appear only in the formatted message). -/
def intersectionNsErr (ns : String) (_otherNs : String) (_partKey : String) : ErrD :=
  ⟨5, some ns, ""⟩
/-- `errorMessages.IntersectionError`. -/
def intersectionErr (ns : Option String) (key : String) (_otherNs : String) : ErrD :=
  ⟨6, ns, key⟩
/-- `errorMessages.UnregisteredKeyError`. -/
def unregisteredKeyErr (ns : Option String) (key : String) : ErrD := ⟨7, ns, key⟩
/-- `errorMessages.CircularDependencyError` (the revisited registry and key
appear only in the formatted message). -/
def circularDependencyErr (ns : Option String) (key : String)
    (_otherNs : String) (_otherKey : String) : ErrD := ⟨8, ns, key⟩

/-- A registry's `_keyValue` entry: a per-locale map (`{ t: Map }`) or a
borrow link (`{ t: null, k: externalFullKey }`). -/
inductive KeyEntry where
  | direct (t : List (String × String))
  | borrow (k : String)
deriving DecidableEq, Repr

/-- One `I18nRegistry`: its namespace and its ordered key table.  (The
source's `_externalListeners` map is recovered from `State.subs` below.) -/
structure Registry where
  nspace : String
  keyValue : List (String × KeyEntry)
deriving DecidableEq, Repr

/-- One live borrow subscription: installed by `_setExternalKey` via
`events.onKey(scopeNs, listener)`; the listener fires
`changeKey(ownerNs, ownerKey)` whenever the key event at `scopeNs`
carries exactly `partKey`. -/
structure BorrowSub where
  scopeNs : String
  ownerNs : String
  ownerKey : String
  partKey : String
deriving DecidableEq, Repr

/-- The cycle-detection context `TVisitedI18n` (`visited` keys registries
by their namespace). -/
structure Ctx where
  namespace? : Option String
  key : String
  visited : List (String × List String)
  error : Bool
deriving DecidableEq, Repr

/-- The shared resolver state (`SharedSingleton` plus every registry's own
table and the borrow subscriptions). -/
structure State where
  namespaces : List (String × Registry)
  cache : List (String × String)
  errorKeys : List String
  locale : String
  defaultLocale : String
  isSupported : String → Bool
  defaultValue : String
  subs : List BorrowSub
  errors : List ErrD
  localeEvents : List String

/-- `errorHandle`: the error sink appends the structured record. -/
def pushErr (st : State) (e : ErrD) : State :=
  { st with errors := st.errors ++ [e] }

/-- JS truthiness of a stored value in the string instantiation. -/
def truthy (v : String) : Bool := v != ""

/-! ## Value resolution (`SharedSingleton.findValue`,
`I18nRegistry[privateI18nRegistryGetValue]`)

The source recursion is bounded only by the visited context; the
embedding threads an explicit fuel, decremented once per
`findValue` entry.  `none` = fuel exhausted. -/

/-- Result of a resolution step: the found `(value, registryNamespace)`
(if any), the ctx as mutated so far, and the error-sink log as grown so
far (the resolution functions read the state but mutate only the sink,
so the embedding threads the log as an accumulator and the caller
stores it back). -/
structure FindRes where
  found : Option (String × String)
  ctx : Ctx
  errs : List ErrD

/-- The `??`-coalescing chain selecting a Direct entry's value:
requested locale, else (when different) the default locale, else the
first entry in insertion order.  JS `??` passes any non-nullish value
through, including the falsy `""`. -/
def selectLocaleValue (dfl : String) (t : List (String × String)) (locale : String) :
    Option String :=
  match alGet t locale with
  | some v => some v
  | none =>
    match (if locale = dfl then none else alGet t dfl) with
    | some v => some v
    | none => t.head?.map (·.2)

/-- The cycle guard of the `findValue` loop body on one candidate
`(registry, localKey)`: a never-visited registry gets a fresh visited
list `[localKey]`; an already-listed `localKey` means a revisit
(`none`); otherwise `localKey` is pushed onto the registry's list. -/
def visitUpdate (ctx : Ctx) (rgNs localKey : String) : Option Ctx :=
  match alGet ctx.visited rgNs with
  | none => some { ctx with visited := alSet ctx.visited rgNs [localKey] }
  | some visitedKeys =>
    if visitedKeys.contains localKey then none
    else some { ctx with visited := alSet ctx.visited rgNs (visitedKeys ++ [localKey]) }

/-- `I18nRegistry[privateI18nRegistryGetValue](locale, localKey, visitedI18n)`:
Direct entries resolve through `selectLocaleValue` plus the truthiness
presence check; Borrow entries recurse (via `recur`, instantiated with
`findValueFuel` at the remaining fuel) into `findValue` on the external
full key with the same context. -/
def rgGetValue (recur : String → Ctx → List ErrD → Option FindRes) (st : State)
    (rg : Registry) (locale localKey : String) (ctx : Ctx) (errs : List ErrD) :
    Option FindRes :=
  match alGet rg.keyValue localKey with
  | none => some ⟨none, ctx, errs⟩
  | some (KeyEntry.direct t) =>
      match selectLocaleValue st.defaultLocale t locale with
      | some v =>
          if truthy v then some ⟨some (v, rg.nspace), ctx, errs⟩ else some ⟨none, ctx, errs⟩
      | none => some ⟨none, ctx, errs⟩
  | some (KeyEntry.borrow k) => recur k ctx errs

/-- The `for (const [ns, localKey] of name2Key)` loop of `findValue`:
cycle guard on the visited context, then local resolution; the first
candidate yielding a present value wins, a revisited candidate sets the
error flag, reports `CircularDependency` and is skipped. -/
def findLoop (recur : String → Ctx → List ErrD → Option FindRes) (st : State)
    (locale : String) : List (String × String) → Ctx → List ErrD → Option FindRes
  | [], ctx, errs => some ⟨none, ctx, errs⟩
  | (ns, localKey) :: rest, ctx, errs =>
      match alGet st.namespaces ns with
      | none => findLoop recur st locale rest ctx errs
      | some rg =>
        match visitUpdate ctx rg.nspace localKey with
        | none =>
            findLoop recur st locale rest { ctx with error := true }
              (errs ++ [circularDependencyErr ctx.namespace? ctx.key rg.nspace localKey])
        | some ctx1 =>
            match rgGetValue recur st rg locale localKey ctx1 errs with
            | none => none
            | some res =>
              match res.found with
              | some _ => some res
              | none => findLoop recur st locale rest res.ctx res.errs

/-- `SharedSingleton.findValue(locale, fullKey, visitedI18n)`, with fuel
consumed once per entry; `none` = fuel exhausted. -/
def findValueFuel : Nat → State → String → String → Ctx → List ErrD → Option FindRes
  | 0, _, _, _, _, _ => none
  | Nat.succ f, st, locale, fullKey, ctx, errs =>
      findLoop (findValueFuel f st locale) st locale (splitKeyByNamespace fullKey) ctx errs

/-! ## Change notification (`SharedSingleton.changeKey`,
`EventEmitter.emitKey`, and the borrow listeners of `_setExternalKey`)

`changeKey` deletes the full key from `_errorKeys` and emits a key
event; each borrow subscription whose scope namespace is an affected
ancestor and whose watched suffix equals the emitted relative key
re-fires `changeKey` for its own `(ownerNs, ownerKey)`.  Listener
cascades over a cyclic committed graph would not terminate, hence the
fuel (consumed once per `emitKey`). -/

/-- `Emitter.emit('key', value)` over the snapshot of one scope's
listeners: each borrow listener whose watched suffix equals the emitted
relative key re-fires `changeKey` (via `recurChange`) for its owner. -/
def dispatchSubs (recurChange : State → String → String → Option State) :
    List BorrowSub → State → String → Option State
  | [], st, _ => some st
  | s :: rest, st, value =>
      if s.partKey == value then
        match recurChange st s.ownerNs s.ownerKey with
        | none => none
        | some st1 => dispatchSubs recurChange rest st1 value
      else
        dispatchSubs recurChange rest st value

/-- The `for (const [ns, localKey] of affectedNamespaces)` loop of
`EventEmitter.emitKey`. -/
def emitAffected (recurChange : State → String → String → Option State) :
    List (String × String) → State → Option State
  | [], st => some st
  | (ns, localKey) :: rest, st =>
      match dispatchSubs recurChange (st.subs.filter fun s => s.scopeNs == ns) st localKey with
      | none => none
      | some st1 => emitAffected recurChange rest st1

/-- `SharedSingleton.changeKey(namespace, key)` parameterised by the
emission: delete the full key from `_errorKeys`, then emit. -/
def changeKeyGen (emitK : State → Option String → String → Option State) (st : State)
    (nspace key : String) : Option State :=
  emitK { st with errorKeys := setDel st.errorKeys (concatNamespaceWithKey (some nspace) key) }
    (some nspace) key

/-- `EventEmitter.emitKey(namespace, key)`: the null-scope emission
reaches only external listeners (no state effect); then every affected
`(ancestorNamespace, relativeKey)` scope is notified in order.  The
listener cascade over a cyclic committed borrow graph would not
terminate, hence the fuel (consumed once per `emitKey`). -/
def emitKeyFuel : Nat → State → Option String → String → Option State
  | 0, _, _, _ => none
  | Nat.succ f, st, namespace?, key =>
      emitAffected (changeKeyGen (emitKeyFuel f))
        (splitKeyByNamespace (concatNamespaceWithKey namespace? key)) st

/-- `SharedSingleton.changeKey(namespace, key)` at a given fuel. -/
def changeKeyFuel (f : Nat) : State → String → String → Option State :=
  changeKeyGen (emitKeyFuel f)

/-! ## Operations of `SharedSingleton` and `I18nRegistry` -/

/-- `I18nRegistry[privateI18nRegistryGetKeyIfIntersection](localKey)`:
the first of the registry's keys one of whose cumulative prefixes
equals `localKey`. -/
def getKeyIfIntersection (rg : Registry) (localKey : String) : Option String :=
  (rg.keyValue.find? fun p => (splitKeyIntoParts p.1).contains localKey).map (·.1)

/-- The intersection scan of `SharedSingleton.register`: the first
ancestor split whose registered registry reports an intersecting key. -/
def findIntersection (st : State) : List (String × String) → Option (String × String)
  | [] => none
  | (ns, localKey) :: rest =>
    match alGet st.namespaces ns with
    | none => findIntersection st rest
    | some rg =>
      match getKeyIfIntersection rg localKey with
      | some key => some (rg.nspace, key)
      | none => findIntersection st rest

/-- `SharedSingleton.register(fullNamespace)`.  The returned registry is
identified by its namespace (`some fullNamespace`); `none` is the
source's `null`. -/
def register (st : State) (fullNamespace : String) : Option String × State :=
  match alGet st.namespaces fullNamespace with
  | some _ => (some fullNamespace, st)
  | none =>
    if !testNamespacePath fullNamespace then
      (none, pushErr st (namespaceErr (some fullNamespace)))
    else
      match findIntersection st (splitKeyByNamespace fullNamespace) with
      | some (otherNs, key) =>
          (none, pushErr st (intersectionNsErr fullNamespace otherNs key))
      | none =>
          (some fullNamespace,
            { st with
              errorKeys := setDel st.errorKeys fullNamespace,
              namespaces := alSet st.namespaces fullNamespace ⟨fullNamespace, []⟩ })

/-- `SharedSingleton.checkFullKey(namespace, key, remove)`. -/
def checkFullKey (st : State) (namespace? : Option String) (key : String) (remove : Bool) :
    Bool × State :=
  let fullKey := concatNamespaceWithKey namespace? key
  match alGet st.namespaces fullKey with
  | some rg => (false, pushErr st (intersectionErr namespace? key rg.nspace))
  | none =>
    if remove then
      (true, { st with cache := alDel st.cache fullKey, errorKeys := setDel st.errorKeys fullKey })
    else (true, st)

/-- `SharedSingleton.changeLocale(locale)`. -/
def changeLocale (st : State) (locale : String) : String × State :=
  if !st.isSupported locale then
    (st.locale, pushErr st (unregisteredLocaleErr locale))
  else if st.locale ≠ locale then
    (locale,
      { st with locale := locale, cache := [], localeEvents := st.localeEvents ++ [locale] })
  else
    (st.locale, st)

/-- `SharedSingleton._handleKey(fullKey, namespace, key)`. -/
def handleKey (f : Nat) (st : State) (fullKey : String) (namespace? : Option String)
    (key : String) : Option (String × State) :=
  if st.errorKeys.contains fullKey then
    some (st.defaultValue, st)
  else
    match findValueFuel f st st.locale fullKey ⟨namespace?, key, [], false⟩ st.errors with
    | none => none
    | some res =>
      match res.found with
      | some (v, _) =>
          some (v, { st with errors := res.errs, cache := alSet st.cache fullKey v })
      | none =>
        let errs1 :=
          if res.ctx.error then res.errs else res.errs ++ [unregisteredKeyErr namespace? key]
        some (st.defaultValue,
          { st with errors := errs1, errorKeys := setAdd st.errorKeys fullKey })

/-- `SharedSingleton.getValue(namespace, key)`: cache hit, else delegate. -/
def getValue (f : Nat) (st : State) (namespace? : Option String) (key : String) :
    Option (String × State) :=
  let fullKey := concatNamespaceWithKey namespace? key
  match alGet st.cache fullKey with
  | some v => some (v, st)
  | none => handleKey f st fullKey namespace? key

/-- `I18nRegistry._setValue(key, value, locale)` on the registry
registered at `rgNs`. -/
def setValue (f : Nat) (st : State) (rgNs key value locale : String) : Option (Bool × State) :=
  if !testNamespacePath key then
    some (false, pushErr st (keyErr (some rgNs) key))
  else
    match checkFullKey st (some rgNs) key true with
    | (false, st1) => some (false, st1)
    | (true, st1) =>
      match alGet st1.namespaces rgNs with
      | none => none
      | some rg =>
        let rg1 :=
          match alGet rg.keyValue key with
          | some (KeyEntry.direct t) =>
              { rg with keyValue := alSet rg.keyValue key (KeyEntry.direct (alSet t locale value)) }
          | _ =>
              { rg with keyValue := alSet rg.keyValue key (KeyEntry.direct [(locale, value)]) }
        let st2 := { st1 with namespaces := alSet st1.namespaces rgNs rg1 }
        let st3 :=
          if (st2.subs.find? fun s => s.ownerNs == rgNs && s.ownerKey == key).isSome then
            { st2 with subs := st2.subs.filter fun s => !(s.ownerNs == rgNs && s.ownerKey == key) }
          else st2
        match changeKeyFuel f st3 rgNs key with
        | none => none
        | some st4 => some (true, st4)

/-- `I18nRegistry._setExternalKey(key, externalFullKey, ns, partKey)` on
the registry registered at `rgNs`: install the borrow entry, replace the
borrow subscription, fire the local key change. -/
def setExternalKey (f : Nat) (st : State) (rgNs key externalFullKey ns partKey : String) :
    Option State :=
  match alGet st.namespaces rgNs with
  | none => none
  | some rg =>
    let st1 :=
      { st with
        namespaces := alSet st.namespaces rgNs
          { rg with keyValue := alSet rg.keyValue key (KeyEntry.borrow externalFullKey) },
        subs := (st.subs.filter fun s => !(s.ownerNs == rgNs && s.ownerKey == key)) ++
          [⟨ns, rgNs, key, partKey⟩] }
    changeKeyFuel f st1 rgNs key

/-- The body of `I18nRegistry.use` after the initial identical-borrow
no-op check: validation, cycle simulation, invariant checks, commit. -/
def useChecked (f : Nat) (st : State) (rgNs key externalFullKey : String) :
    Option (Bool × State) :=
  if !testNamespacePath key then
    some (false, pushErr st (keyErr (some rgNs) key))
  else if !testNamespacePath externalFullKey then
    some (false, pushErr st (keyErr none externalFullKey))
  else
    match splitDot externalFullKey with
    | [] => some (false, pushErr st (keyErr none externalFullKey))
    | [_] => some (false, pushErr st (keyErr none externalFullKey))
    | ns :: part1 :: partRest =>
      let partKey := joinDot (part1 :: partRest)
      if ns = "" ∨ partKey = "" then
        some (false, pushErr st (keyErr none externalFullKey))
      else if concatNamespaceWithKey (some rgNs) key == externalFullKey then
        some (false, pushErr st (circularDependencyErr none externalFullKey rgNs key))
      else
        match findValueFuel f st st.locale externalFullKey ⟨none, key, [(rgNs, [key])], false⟩
            st.errors with
        | none => none
        | some res =>
          if res.ctx.error then some (false, { st with errors := res.errs })
          else
            match checkFullKey { st with errors := res.errs } none externalFullKey false with
            | (false, st1) => some (false, st1)
            | (true, st1) =>
              match checkFullKey st1 (some rgNs) key true with
              | (false, st2) => some (false, st2)
              | (true, st2) =>
                match setExternalKey f st2 rgNs key externalFullKey ns partKey with
                | none => none
                | some st3 => some (true, st3)

/-- `I18nRegistry.use(key, externalFullKey)` on the registry registered
at `rgNs`: no-op success when the identical borrow is already installed. -/
def use (f : Nat) (st : State) (rgNs key externalFullKey : String) : Option (Bool × State) :=
  match alGet st.namespaces rgNs with
  | none => none
  | some rg =>
    match alGet rg.keyValue key with
    | some (KeyEntry.borrow k) =>
        if k == externalFullKey then some (true, st)
        else useChecked f st rgNs key externalFullKey
    | _ => useChecked f st rgNs key externalFullKey

/-- A fresh resolver state, as built from `parseOptions` configuration. -/
def initState (locale defaultLocale defaultValue : String) (isSupported : String → Bool) :
    State :=
  ⟨[], [], [], locale, defaultLocale, isSupported, defaultValue, [], [], []⟩

/-! ## Basic lemmas on the map/set helpers -/

theorem alGet_alSet_self {α : Type} (l : List (String × α)) (k : String) (v : α) :
    alGet (alSet l k v) k = some v := by
  induction l with
  | nil => simp [alGet, alSet]
  | cons p rest ih =>
    by_cases h : p.1 = k
    · simp [alSet, alGet, h]
    · simp [alSet, alGet, h, ih]

theorem alGet_alSet_ne {α : Type} (l : List (String × α)) (k k' : String) (v : α)
    (h : k' ≠ k) : alGet (alSet l k v) k' = alGet l k' := by
  induction l with
  | nil => simp [alGet, alSet, Ne.symm h]
  | cons p rest ih =>
    by_cases hp : p.1 = k
    · simp [alSet, alGet, hp, Ne.symm h]
    · simp only [alSet, beq_iff_eq, hp, if_false, alGet]
      by_cases hp' : p.1 = k' <;> simp [hp', ih]

theorem alGet_some_mem {α : Type} {l : List (String × α)} {k : String} {v : α}
    (h : alGet l k = some v) : (k, v) ∈ l := by
  induction l with
  | nil => simp [alGet] at h
  | cons p rest ih =>
    by_cases hp : p.1 = k
    · simp only [alGet, hp, beq_self_eq_true, if_true, Option.some.injEq] at h
      obtain ⟨a, b⟩ := p
      simp only at hp h
      subst hp
      subst h
      exact List.mem_cons_self _ _
    · simp only [alGet, hp, beq_iff_eq, if_false] at h
      exact List.mem_cons_of_mem _ (ih h)

theorem alGet_none_keys {α : Type} {l : List (String × α)} {k : String}
    (h : alGet l k = none) : k ∉ l.map Prod.fst := by
  induction l with
  | nil => simp
  | cons p rest ih =>
    by_cases hp : p.1 = k
    · simp [alGet, hp] at h
    · simp only [alGet, hp, beq_iff_eq, if_false] at h
      simp only [List.map_cons, List.mem_cons]
      rintro (rfl | hm)
      · exact hp rfl
      · exact ih h hm

theorem contains_setAdd_self (l : List String) (k : String) :
    (setAdd l k).contains k = true := by
  unfold setAdd
  split
  · assumption
  · simp

theorem not_mem_setDel_self (l : List String) (k : String) : k ∉ setDel l k := by
  simp [setDel, List.mem_filter]

theorem contains_setDel_self (l : List String) (k : String) :
    (setDel l k).contains k = false := by
  have := not_mem_setDel_self l k
  simp only [List.contains]
  rw [← Bool.not_eq_true]
  intro hc
  exact this (List.elem_iff.mp hc)

/-! ## Claim C9: `changeLocale` frame and effects -/

/-- **C9**: `changeLocale(locale)` with a locale rejected by the
acceptance predicate reports `UnregisteredLocale` and leaves the current
locale, the cache and the unresolved-key set (`_errorKeys`) unchanged;
with an accepted locale different from the current one it updates the
current locale, clears the cache entirely, emits the locale-changed
event and leaves the unresolved-key set unchanged; in every case it
returns the (possibly unchanged) current locale. -/
theorem changeLocale_frame_spec :
    (∀ st l, st.isSupported l = false →
      (changeLocale st l).1 = st.locale ∧
      (changeLocale st l).2.locale = st.locale ∧
      (changeLocale st l).2.cache = st.cache ∧
      (changeLocale st l).2.errorKeys = st.errorKeys ∧
      (changeLocale st l).2.errors = st.errors ++ [unregisteredLocaleErr l]) ∧
    (∀ st l, st.isSupported l = true → st.locale ≠ l →
      (changeLocale st l).1 = l ∧
      (changeLocale st l).2.locale = l ∧
      (changeLocale st l).2.cache = [] ∧
      (changeLocale st l).2.errorKeys = st.errorKeys ∧
      (changeLocale st l).2.localeEvents = st.localeEvents ++ [l]) ∧
    (∀ st l, st.isSupported l = true → st.locale = l →
      changeLocale st l = (st.locale, st)) := by
  refine ⟨?_, ?_, ?_⟩
  · intro st l h
    simp [changeLocale, h, pushErr]
  · intro st l h1 h2
    simp [changeLocale, h1, h2]
  · intro st l h1 h2
    simp [changeLocale, h1, h2]

/-- Concrete state exercising `changeLocale`. -/
def c9st : State := initState "en" "en" "D" (fun l => l == "en" || l == "fr")

theorem changeLocale_frame_spec_witness :
    ((changeLocale c9st "xx").1 = c9st.locale ∧
     (changeLocale c9st "xx").2.locale = c9st.locale ∧
     (changeLocale c9st "xx").2.cache = c9st.cache ∧
     (changeLocale c9st "xx").2.errorKeys = c9st.errorKeys ∧
     (changeLocale c9st "xx").2.errors = c9st.errors ++ [unregisteredLocaleErr "xx"]) ∧
    ((changeLocale c9st "fr").1 = "fr" ∧
     (changeLocale c9st "fr").2.locale = "fr" ∧
     (changeLocale c9st "fr").2.cache = [] ∧
     (changeLocale c9st "fr").2.errorKeys = c9st.errorKeys ∧
     (changeLocale c9st "fr").2.localeEvents = c9st.localeEvents ++ ["fr"]) ∧
    changeLocale c9st "en" = (c9st.locale, c9st) :=
  ⟨changeLocale_frame_spec.1 c9st "xx" rfl,
   changeLocale_frame_spec.2.1 c9st "fr" rfl (by decide),
   changeLocale_frame_spec.2.2 c9st "en" rfl rfl⟩

/-! ## Claim C5: Direct-entry locale fallback order -/

/-- Shared concrete base: locale `fr`, default locale `en`. -/
def c5init : State := initState "fr" "en" "DEF" (fun _ => true)
/-- Shared concrete base with namespace `ns` registered. -/
def c5reg : State := (register c5init "ns").2
/-- `ns.k` holds a value only under locale `en` (`defaultLocale = en`). -/
def c5st : State := ((setValue 5 c5reg "ns" "k" "EN" "en").map (·.2)).getD c5init

/-- **C5**: a Direct entry resolves by the requested locale first; when
that lookup yields nothing it falls back to the `defaultLocale` entry
(only consulted when the requested locale differs), and failing both to
the first remaining entry; in particular a key stored only under `en`
with `defaultLocale = en` resolves under the third locale `fr` to the
`en` value through the whole `getValue` pipeline. -/
theorem directLocaleFallback_spec :
    (∀ dfl t loc v, alGet t loc = some v → selectLocaleValue dfl t loc = some v) ∧
    (∀ dfl t loc v, alGet t loc = none → loc ≠ dfl → alGet t dfl = some v →
      selectLocaleValue dfl t loc = some v) ∧
    (∀ dfl t loc, alGet t loc = none → alGet t dfl = none →
      selectLocaleValue dfl t loc = t.head?.map (·.2)) ∧
    (getValue 5 c5st (some "ns") "k").map (·.1) = some "EN" := by
  refine ⟨?_, ?_, ?_, by decide⟩
  · intro dfl t loc v h
    simp [selectLocaleValue, h]
  · intro dfl t loc v h1 h2 h3
    simp [selectLocaleValue, h1, h2, h3]
  · intro dfl t loc h1 h3
    by_cases hd : loc = dfl <;> simp [selectLocaleValue, h1, h3, hd]

theorem directLocaleFallback_spec_witness :
    (alGet [("en", "X")] "en" = some "X" ∧
     selectLocaleValue "de" [("en", "X")] "en" = some "X") ∧
    (alGet [("en", "X")] "fr" = none ∧ ("fr" : String) ≠ "en" ∧
     alGet [("en", "X")] "en" = some "X" ∧
     selectLocaleValue "en" [("en", "X")] "fr" = some "X") ∧
    (alGet [("de", "Y")] "fr" = none ∧ alGet [("de", "Y")] "en" = none ∧
     selectLocaleValue "en" [("de", "Y")] "fr" = [("de", "Y")].head?.map (·.2)) :=
  ⟨⟨by decide, directLocaleFallback_spec.1 "de" [("en", "X")] "en" "X" (by decide)⟩,
   ⟨by decide, by decide, by decide,
    directLocaleFallback_spec.2.1 "en" [("en", "X")] "fr" "X" (by decide) (by decide) (by decide)⟩,
   ⟨by decide, by decide,
    directLocaleFallback_spec.2.2.1 "en" [("de", "Y")] "fr" (by decide) (by decide)⟩⟩

/-! ## Claim C10: a falsy stored value shadows every fallback stage -/

/-- `ns.k` holds `"X"` under `en` (the default locale) and the empty
string under `fr`; current locale `fr`. -/
def c10st : State :=
  ((setValue 5 (((setValue 5 c5reg "ns" "k" "X" "en").map (·.2)).getD c5init)
      "ns" "k" "" "fr").map (·.2)).getD c5init

/-- **C10**: when the value stored under the requested locale is the
falsy `""` while the default locale holds a truthy value, the
coalescing chain still selects the falsy value (it is non-nullish), the
truthiness presence check then rejects it, and the candidate reports
not-found — the `defaultLocale` and remaining-entry fallbacks are never
consulted; end to end, `getValue` falls through to the unresolved
default and reports `UnregisteredKey` despite the truthy `en` value. -/
theorem falsyValueShadowsFallback_spec :
    (∀ dfl t loc, alGet t loc = some "" → selectLocaleValue dfl t loc = some "") ∧
    (∀ recur st rg t loc lk ctx errs,
      alGet rg.keyValue lk = some (KeyEntry.direct t) → alGet t loc = some "" →
      rgGetValue recur st rg loc lk ctx errs = some ⟨none, ctx, errs⟩) ∧
    (getValue 5 c10st (some "ns") "k").map (·.1) = some "DEF" ∧
    (getValue 5 c10st (some "ns") "k").map (·.2.errors) =
      some (c10st.errors ++ [unregisteredKeyErr (some "ns") "k"]) := by
  refine ⟨?_, ?_, by decide, by decide⟩
  · intro dfl t loc h
    simp [selectLocaleValue, h]
  · intro recur st rg t loc lk ctx errs h1 h2
    simp [rgGetValue, h1, selectLocaleValue, h2, truthy]

theorem falsyValueShadowsFallback_spec_witness :
    (alGet [("fr", ""), ("en", "X")] "fr" = some "" ∧
     selectLocaleValue "en" [("fr", ""), ("en", "X")] "fr" = some "") ∧
    (alGet (⟨"ns", [("k", KeyEntry.direct [("fr", ""), ("en", "X")])]⟩ : Registry).keyValue "k" =
        some (KeyEntry.direct [("fr", ""), ("en", "X")]) ∧
     rgGetValue (fun _ _ _ => none) c5init ⟨"ns", [("k", KeyEntry.direct [("fr", ""), ("en", "X")])]⟩
        "fr" "k" ⟨none, "k", [], false⟩ [] = some ⟨none, ⟨none, "k", [], false⟩, []⟩) :=
  ⟨⟨by decide, falsyValueShadowsFallback_spec.1 "en" [("fr", ""), ("en", "X")] "fr" (by decide)⟩,
   ⟨by decide,
    falsyValueShadowsFallback_spec.2.1 (fun _ _ _ => none) c5init
      ⟨"ns", [("k", KeyEntry.direct [("fr", ""), ("en", "X")])]⟩ [("fr", ""), ("en", "X")]
      "fr" "k" ⟨none, "k", [], false⟩ [] (by decide) (by decide)⟩⟩

/-! ## Claim C2: failing operations mutate no resolver state -/

/-- The resolver-state components that claim C2 requires untouched on a
failed operation: the namespace→registry map (and with it every
registry's key table), the cache, the unresolved-key set, the borrow
subscriptions and the current locale.  (The error sink is the reporting
channel, not resolver state.) -/
def SameCore (st st' : State) : Prop :=
  st'.namespaces = st.namespaces ∧ st'.cache = st.cache ∧
  st'.errorKeys = st.errorKeys ∧ st'.subs = st.subs ∧ st'.locale = st.locale

theorem SameCore_refl (st : State) : SameCore st st := ⟨rfl, rfl, rfl, rfl, rfl⟩

theorem SameCore_trans {a b c : State} (h1 : SameCore a b) (h2 : SameCore b c) :
    SameCore a c := by
  obtain ⟨x1, x2, x3, x4, x5⟩ := h1
  obtain ⟨y1, y2, y3, y4, y5⟩ := h2
  exact ⟨y1.trans x1, y2.trans x2, y3.trans x3, y4.trans x4, y5.trans x5⟩

theorem SameCore_pushErr (st : State) (e : ErrD) : SameCore st (pushErr st e) :=
  ⟨rfl, rfl, rfl, rfl, rfl⟩

theorem SameCore_setErrors (st : State) (es : List ErrD) :
    SameCore st { st with errors := es } := ⟨rfl, rfl, rfl, rfl, rfl⟩

theorem checkFullKey_false_frame {st : State} {ns : Option String} {k : String} {rm : Bool}
    {st1 : State} (h : checkFullKey st ns k rm = (false, st1)) : SameCore st st1 := by
  simp only [checkFullKey] at h
  split at h
  · simp only [Prod.mk.injEq, true_and] at h
    exact h ▸ SameCore_pushErr ..
  · split at h <;> simp at h

theorem checkFullKey_noRemove_true {st : State} {ns : Option String} {k : String}
    {st1 : State} (h : checkFullKey st ns k false = (true, st1)) : st1 = st := by
  simp only [checkFullKey, Bool.false_eq_true, if_false] at h
  split at h
  · simp at h
  · simp only [Prod.mk.injEq, true_and] at h
    exact h.symm

theorem useChecked_false_frame {f : Nat} {st : State} {rgNs key ext : String} {st' : State}
    (h : useChecked f st rgNs key ext = some (false, st')) : SameCore st st' := by
  simp only [useChecked] at h
  split at h
  · simp only [Option.some.injEq, Prod.mk.injEq, true_and] at h
    exact h ▸ SameCore_pushErr ..
  · split at h
    · simp only [Option.some.injEq, Prod.mk.injEq, true_and] at h
      exact h ▸ SameCore_pushErr ..
    · split at h
      · simp only [Option.some.injEq, Prod.mk.injEq, true_and] at h
        exact h ▸ SameCore_pushErr ..
      · simp only [Option.some.injEq, Prod.mk.injEq, true_and] at h
        exact h ▸ SameCore_pushErr ..
      · split at h
        · simp only [Option.some.injEq, Prod.mk.injEq, true_and] at h
          exact h ▸ SameCore_pushErr ..
        · split at h
          · simp only [Option.some.injEq, Prod.mk.injEq, true_and] at h
            exact h ▸ SameCore_pushErr ..
          · split at h
            · exact absurd h (by simp)
            · split at h
              · simp only [Option.some.injEq, Prod.mk.injEq, true_and] at h
                exact h ▸ SameCore_setErrors ..
              · split at h
                · rename_i st1 heq
                  simp only [Option.some.injEq, Prod.mk.injEq, true_and] at h
                  exact h ▸ SameCore_trans (SameCore_setErrors ..) (checkFullKey_false_frame heq)
                · rename_i st1 heq
                  split at h
                  · rename_i st2 heq2
                    simp only [Option.some.injEq, Prod.mk.injEq, true_and] at h
                    subst h
                    have h1 := checkFullKey_noRemove_true heq
                    subst h1
                    exact SameCore_trans (SameCore_setErrors ..) (checkFullKey_false_frame heq2)
                  · split at h
                    · exact absurd h (by simp)
                    · simp at h

theorem register_none_frame {st : State} {ns : String} {st' : State}
    (h : register st ns = (none, st')) : SameCore st st' := by
  simp only [register] at h
  split at h
  · simp at h
  · split at h
    · simp only [Prod.mk.injEq, true_and] at h
      exact h ▸ SameCore_pushErr ..
    · split at h
      · simp only [Prod.mk.injEq, true_and] at h
        exact h ▸ SameCore_pushErr ..
      · simp at h

theorem setValue_false_frame {f : Nat} {st : State} {rgNs key v loc : String} {st' : State}
    (h : setValue f st rgNs key v loc = some (false, st')) : SameCore st st' := by
  simp only [setValue] at h
  split at h
  · simp only [Option.some.injEq, Prod.mk.injEq, true_and] at h
    exact h ▸ SameCore_pushErr ..
  · split at h
    · rename_i st1 heq
      simp only [Option.some.injEq, Prod.mk.injEq, true_and] at h
      exact h ▸ checkFullKey_false_frame heq
    · split at h
      · simp at h
      · split at h <;> simp at h

theorem use_false_frame {f : Nat} {st : State} {rgNs key ext : String} {st' : State}
    (h : use f st rgNs key ext = some (false, st')) : SameCore st st' := by
  simp only [use] at h
  split at h
  · simp at h
  · split at h
    · split at h
      · simp at h
      · exact useChecked_false_frame h
    · exact useChecked_false_frame h

/-! The claim theorem for C2. -/

/-- **C2**: every call of `register`, of direct key assignment
(`_setValue`) or of `use` that fails (returns `null` resp. `false`
after reporting to the error sink) leaves the entire resolver state —
the namespace→registry map and with it every registry's key table, the
borrow subscriptions, the cache, the unresolved-key set and the current
locale — exactly as it was before the call. -/
theorem failure_atomicity_spec :
    (∀ st ns st', register st ns = (none, st') → SameCore st st') ∧
    (∀ f st rgNs key v loc st',
      setValue f st rgNs key v loc = some (false, st') → SameCore st st') ∧
    (∀ f st rgNs key ext st',
      use f st rgNs key ext = some (false, st') → SameCore st st') :=
  ⟨fun _ _ _ h => register_none_frame h,
   fun _ _ _ _ _ _ _ h => setValue_false_frame h,
   fun _ _ _ _ _ _ h => use_false_frame h⟩

theorem failure_atomicity_spec_witness :
    SameCore c9st ((register c9st "..").2) ∧
    SameCore c5reg (pushErr c5reg (keyErr (some "ns") ".k")) ∧
    SameCore c5reg (pushErr c5reg (keyErr none "nokey")) :=
  ⟨failure_atomicity_spec.1 c9st ".." _ rfl,
   failure_atomicity_spec.2.1 5 c5reg "ns" ".k" "v" "en" _ rfl,
   failure_atomicity_spec.2.2 5 c5reg "ns" "k2" "nokey" _ rfl⟩

/-! ## Claim C8: consecutive `getValue` calls agree -/

/-- **C8**: two consecutive `getValue(namespace, key)` calls with no
intervening mutating operation return the identical value — including
the collaborator-supplied default when the key is unresolved — and the
second call leaves the state exactly as the first left it. -/
theorem getValue_consecutive_spec : ∀ f f2 st ns key v st',
    getValue f st ns key = some (v, st') → getValue f2 st' ns key = some (v, st') := by
  intro f f2 st ns key v st' h
  simp only [getValue] at h ⊢
  split at h
  · rename_i w heq
    simp only [Option.some.injEq, Prod.mk.injEq] at h
    obtain ⟨rfl, rfl⟩ := h
    simp [heq]
  · rename_i heq
    simp only [handleKey] at h ⊢
    split at h
    · rename_i hek
      simp only [Option.some.injEq, Prod.mk.injEq] at h
      obtain ⟨rfl, rfl⟩ := h
      have hek2 : concatNamespaceWithKey ns key ∈ st.errorKeys := List.elem_iff.mp hek
      simp [heq, hek2]
    · rename_i hek
      split at h
      · simp at h
      · rename_i res heqf
        split at h
        · rename_i w rgn heqr
          simp only [Option.some.injEq, Prod.mk.injEq] at h
          obtain ⟨rfl, rfl⟩ := h
          simp [alGet_alSet_self]
        · rename_i heqr
          simp only [Option.some.injEq, Prod.mk.injEq] at h
          obtain ⟨rfl, rfl⟩ := h
          have hin : concatNamespaceWithKey ns key ∈
              setAdd st.errorKeys (concatNamespaceWithKey ns key) :=
            List.elem_iff.mp (contains_setAdd_self ..)
          simp [heq, hin]

/-- State left by a first (resolving) `getValue` call on `c5st`. -/
def c8st1 : State := ((getValue 5 c5st (some "ns") "k").map (·.2)).getD c5init
/-- State left by a first (unresolved) `getValue` call on `c5reg`. -/
def c8st2 : State := ((getValue 5 c5reg (some "ns") "zz").map (·.2)).getD c5init

theorem getValue_consecutive_spec_witness :
    (getValue 5 c5st (some "ns") "k" = some ("EN", c8st1) ∧
     getValue 3 c8st1 (some "ns") "k" = some ("EN", c8st1)) ∧
    (getValue 5 c5reg (some "ns") "zz" = some ("DEF", c8st2) ∧
     getValue 4 c8st2 (some "ns") "zz" = some ("DEF", c8st2)) :=
  ⟨⟨rfl, getValue_consecutive_spec 5 3 c5st (some "ns") "k" "EN" c8st1 rfl⟩,
   ⟨rfl, getValue_consecutive_spec 5 4 c5reg (some "ns") "zz" "DEF" c8st2 rfl⟩⟩

/-! ## Claim C6: split enumeration order and first-match-wins -/

/-- **C6**: for a full key of `n` dot-separated segments, `findValue`
iterates exactly the `n - 1` `(ancestorNamespace, suffixKey)` splits,
the `i`-th split having the `i + 1`-segment ancestor (so the order is
by increasing ancestor length); and the loop returns the result of the
first candidate that yields a present value without consulting the
remaining (longer-ancestor) candidates. -/
theorem findValue_split_order_spec :
    (∀ fullKey, (splitKeyByNamespace fullKey).length = (splitDot fullKey).length - 1) ∧
    (∀ fullKey i (h : i < (splitKeyByNamespace fullKey).length),
      (splitKeyByNamespace fullKey).get ⟨i, h⟩ =
        (joinDot ((splitDot fullKey).take (i + 1)), joinDot ((splitDot fullKey).drop (i + 1)))) ∧
    (∀ f st locale fullKey ctx errs,
      findValueFuel (f + 1) st locale fullKey ctx errs =
        findLoop (findValueFuel f st locale) st locale (splitKeyByNamespace fullKey) ctx errs) ∧
    (∀ recur st locale p ctx errs res,
      findLoop recur st locale [p] ctx errs = some res → res.found.isSome = true →
      ∀ rest, findLoop recur st locale (p :: rest) ctx errs = some res) := by
  refine ⟨?_, ?_, fun _ _ _ _ _ _ => rfl, ?_⟩
  · intro fullKey
    simp [splitKeyByNamespace, collectNamespaceKeyPairs]
  · intro fullKey i h
    simp only [splitKeyByNamespace, collectNamespaceKeyPairs, List.get_eq_getElem,
      List.getElem_map, List.getElem_drop, List.getElem_range, Nat.add_comm]
  · intro recur st locale p ctx errs res h hf rest
    obtain ⟨ns, localKey⟩ := p
    simp only [findLoop] at h ⊢
    split at h
    · simp only [findLoop, Option.some.injEq] at h
      rw [← h] at hf
      simp at hf
    · rename_i rg heq1
      split at h
      · simp only [findLoop, Option.some.injEq] at h
        rw [← h] at hf
        simp at hf
      · rename_i ctx1 heq2
        split at h
        · simp at h
        · rename_i r heq3
          split at h
          · rename_i w heq4
            simp only [Option.some.injEq] at h
            subst h
            simp only [heq3, heq4]
          · rename_i heq4
            simp only [findLoop, Option.some.injEq] at h
            rw [← h] at hf
            simp at hf

/-- Concrete first-match result used in the C6 witness. -/
def c6res : FindRes := ⟨some ("EN", "ns"), ⟨none, "k", [("ns", ["k"])], false⟩, []⟩

theorem findValue_split_order_spec_witness :
    (splitKeyByNamespace "a.b.c").get ⟨1, by decide⟩ =
      (joinDot ((splitDot "a.b.c").take 2), joinDot ((splitDot "a.b.c").drop 2)) ∧
    findLoop (findValueFuel 3 c5st "fr") c5st "fr" [("ns", "k"), ("bogus", "x")]
      ⟨none, "k", [], false⟩ [] = some c6res :=
  ⟨findValue_split_order_spec.2.1 "a.b.c" 1 (by decide),
   findValue_split_order_spec.2.2.2 (findValueFuel 3 c5st "fr") c5st "fr" ("ns", "k")
     ⟨none, "k", [], false⟩ [] c6res rfl rfl [("bogus", "x")]⟩

/-! ## Claim C4: indirect three-namespace cycle detection (spec P6) -/

/-- Base state for P6: locale `ru`, three registries `ns1 ns2 ns3`. -/
def c4a : State := (register (initState "ru" "ru" "DEV" (fun _ => true)) "ns1").2
def c4b : State := (register c4a "ns2").2
def c4c : State := (register c4b "ns3").2
/-- After `ns1.use('v','ns2.v')`. -/
def c4d : State := ((use 20 c4c "ns1" "v" "ns2.v").map (·.2)).getD c4c
/-- After `ns2.use('v','ns3.v')`. -/
def c4e : State := ((use 20 c4d "ns2" "v" "ns3.v").map (·.2)).getD c4c
/-- After `ns3.use('v','ns1.w')`. -/
def c4f : State := ((use 20 c4e "ns3" "v" "ns1.w").map (·.2)).getD c4c
/-- After `ns1.set('w', "X")` with the truthy value `"X"`. -/
def c4g : State := ((setValue 20 c4f "ns1" "w" "X" "ru").map (·.2)).getD c4c
/-- After the first `getValue` of `ns1.v` (which caches `"X"`). -/
def c4h : State := ((getValue 20 c4g none "ns1.v").map (·.2)).getD c4c

/-- **C4**: in the scenario `ns1.use('v','ns2.v'); ns2.use('v','ns3.v');
ns3.use('v','ns1.w'); ns1.set('w', X)` with the truthy `X = "X"`,
`getValue` resolves `ns1.v` to `X` through the borrow chain; the
subsequent `ns1.use('w','ns1.v')` returns `false`, appends exactly one
`CircularDependency` report, commits nothing (key tables and cache
unchanged), and `ns1.v` afterwards still resolves to `X`. -/
theorem cycleDetection_threeNamespace_spec :
    truthy "X" = true ∧
    (use 20 c4e "ns3" "v" "ns1.w").map (·.1) = some true ∧
    (getValue 20 c4g none "ns1.v").map (·.1) = some "X" ∧
    (use 20 c4h "ns1" "w" "ns1.v").map (·.1) = some false ∧
    (use 20 c4h "ns1" "w" "ns1.v").map (·.2.errors) =
      some (c4h.errors ++ [circularDependencyErr none "w" "ns1" "w"]) ∧
    (use 20 c4h "ns1" "w" "ns1.v").map (·.2.namespaces) = some c4h.namespaces ∧
    (use 20 c4h "ns1" "w" "ns1.v").map (·.2.cache) = some c4h.cache ∧
    ((use 20 c4h "ns1" "w" "ns1.v").map (·.2)).bind
      (fun st2 => (getValue 20 st2 none "ns1.v").map (·.1)) = some "X" := by
  decide

/-! ## Claim C1: cache invalidation when a borrowed target changes -/

/-- Registries `ext` and `ns`; `ns.k` borrows `ext.x`. -/
def c1a : State := (register (initState "en" "en" "DEF" (fun _ => true)) "ext").2
def c1b : State := (register c1a "ns").2
/-- After `ns.use('k', 'ext.x')` committed the borrow. -/
def c1c : State := ((use 20 c1b "ns" "k" "ext.x").map (·.2)).getD c1b
/-- After the direct `ext.set('x', "v1", 'en')`. -/
def c1d : State := ((setValue 20 c1c "ext" "x" "v1" "en").map (·.2)).getD c1b
/-- After `getValue(ns, k)` resolved `"v1"` and cached it under `ns.k`. -/
def c1e : State := ((getValue 20 c1d (some "ns") "k").map (·.2)).getD c1b
/-- After the borrowed target changed: `ext.set('x', "v2", 'en')`. -/
def c1f : State := ((setValue 20 c1e "ext" "x" "v2" "en").map (·.2)).getD c1b

/-- **C1 (failing input)**: with the borrow `ns.k → ext.x` committed and
`getValue(ns, k)` having cached `"v1"` under the full key `ns.k`, a
subsequent direct set of the borrowed target to `"v2"` propagates a
change notification that clears the unresolved-set entry for `ns.k` but
leaves its cache entry in place, so the next `getValue(ns, k)` returns
the stale `"v1"` although the target itself now resolves to `"v2"`. -/
theorem borrowedTargetChange_staleCache :
    (getValue 20 c1d (some "ns") "k").map (·.1) = some "v1" ∧
    c1e.cache = [("ns.k", "v1")] ∧
    (setValue 20 c1e "ext" "x" "v2" "en").map (·.1) = some true ∧
    c1f.errorKeys = [] ∧
    c1f.cache = [("ns.k", "v1")] ∧
    (getValue 20 c1f (some "ext") "x").map (·.1) = some "v2" ∧
    (getValue 20 c1f (some "ns") "k").map (·.1) = some "v1" := by
  decide

/-! ## Split/join roundtrip lemmas for the path utilities -/

theorem splitDotCh_ne_nil (l : List Char) : splitDotCh l ≠ [] := by
  induction l with
  | nil => simp [splitDotCh]
  | cons c rest ih =>
    simp only [splitDotCh]
    cases hs : splitDotCh rest with
    | nil => exact absurd hs ih
    | cons s ss =>
      split <;> [simp_all; skip]
      by_cases hc : c = '.' <;> simp [hc]

theorem splitDotCh_append (a b : List Char) :
    splitDotCh (a ++ '.' :: b) = splitDotCh a ++ splitDotCh b := by
  induction a with
  | nil =>
    simp only [List.nil_append, splitDotCh]
    cases hs : splitDotCh b with
    | nil => exact absurd hs (splitDotCh_ne_nil b)
    | cons s ss => simp
  | cons c a2 ih =>
    show splitDotCh (c :: (a2 ++ '.' :: b)) = _
    simp only [splitDotCh]
    rw [ih]
    cases hs : splitDotCh a2 with
    | nil => exact absurd hs (splitDotCh_ne_nil a2)
    | cons s ss =>
      simp only [List.cons_append]
      by_cases hc : c = '.' <;> simp [hc]

theorem joinDotCh_splitDotCh (l : List Char) : joinDotCh (splitDotCh l) = l := by
  induction l with
  | nil => rfl
  | cons c rest ih =>
    simp only [splitDotCh]
    cases hs : splitDotCh rest with
    | nil => exact absurd hs (splitDotCh_ne_nil rest)
    | cons s ss =>
      rw [hs] at ih
      by_cases hc : c = '.'
      · subst hc
        simpa [joinDotCh] using ih
      · cases ss with
        | nil => simpa [joinDotCh, hc] using congrArg (c :: ·) ih
        | cons t ts => simpa [joinDotCh, hc] using congrArg (c :: ·) ih

theorem data_mk (l : List Char) : (String.mk l).data = l := rfl

theorem mk_data (s : String) : String.mk s.data = s := rfl

theorem splitDot_ne_nil (s : String) : splitDot s ≠ [] := by
  simp [splitDot, splitDotCh_ne_nil]

theorem splitDot_concat (a b : String) : splitDot (a ++ "." ++ b) = splitDot a ++ splitDot b := by
  have hdata : (a ++ "." ++ b).data = a.data ++ '.' :: b.data := by
    simp [String.data_append]
  simp [splitDot, hdata, splitDotCh_append]

theorem joinDot_splitDot (s : String) : joinDot (splitDot s) = s := by
  have hmaps : (splitDotCh s.data).map (fun l => (String.mk l).data) = splitDotCh s.data := by
    simp [data_mk]
  simp only [joinDot, splitDot, List.map_map, Function.comp_def, hmaps, joinDotCh_splitDotCh,
    mk_data]

/-! ## Claim C7: namespace/key intersection symmetry -/

theorem mem_splitKeyIntoParts_self (k : String) : k ∈ splitKeyIntoParts k := by
  have hn : 0 < (splitDot k).length := List.length_pos.mpr (splitDot_ne_nil k)
  have hmem : (splitDot k).length - 1 ∈ List.range (splitDot k).length := by
    rw [List.mem_range]
    omega
  have htake : joinDot ((splitDot k).take ((splitDot k).length - 1 + 1)) = k := by
    have h1 : (splitDot k).length - 1 + 1 = (splitDot k).length := by omega
    rw [h1, List.take_length, joinDot_splitDot]
  simp only [splitKeyIntoParts]
  exact List.mem_map.mpr ⟨(splitDot k).length - 1, hmem, htake⟩

theorem mem_drop_one_range {i n : Nat} (h1 : 1 ≤ i) (h2 : i < n) :
    i ∈ (List.range n).drop 1 := by
  have hlen : i - 1 < ((List.range n).drop 1).length := by
    simp only [List.length_drop, List.length_range]
    omega
  have hget : ((List.range n).drop 1)[i - 1] = i := by
    rw [List.getElem_drop, List.getElem_range]
    omega
  rw [← hget]
  exact List.getElem_mem hlen

theorem mem_splitKeyByNamespace_concat (ns k : String) :
    (ns, k) ∈ splitKeyByNamespace (ns ++ "." ++ k) := by
  have hia : 0 < (splitDot ns).length := List.length_pos.mpr (splitDot_ne_nil ns)
  have hib : 0 < (splitDot k).length := List.length_pos.mpr (splitDot_ne_nil k)
  simp only [splitKeyByNamespace, collectNamespaceKeyPairs, splitDot_concat]
  refine List.mem_map.mpr ⟨(splitDot ns).length, ?_, ?_⟩
  · refine mem_drop_one_range hia ?_
    simp only [List.length_append]
    omega
  · rw [List.take_left, List.drop_left, joinDot_splitDot, joinDot_splitDot]

theorem getKeyIfIntersection_self {rg : Registry} {k : String} {e : KeyEntry}
    (he : alGet rg.keyValue k = some e) : getKeyIfIntersection rg k ≠ none := by
  have hmem := alGet_some_mem he
  intro hn
  unfold getKeyIfIntersection at hn
  cases hf : rg.keyValue.find? (fun p => (splitKeyIntoParts p.1).contains k) with
  | some q => rw [hf] at hn; simp at hn
  | none =>
    rw [List.find?_eq_none] at hf
    have hk := hf (k, e) hmem
    simp only [Bool.not_eq_true] at hk
    rw [← Bool.not_eq_true] at hk
    exact hk (List.elem_iff.mpr (mem_splitKeyIntoParts_self k))

theorem findIntersection_isSome {st : State} {l : List (String × String)} {ns k : String}
    {rg : Registry} (hmem : (ns, k) ∈ l) (hrg : alGet st.namespaces ns = some rg)
    (hint : getKeyIfIntersection rg k ≠ none) :
    (findIntersection st l).isSome = true := by
  induction l with
  | nil => simp at hmem
  | cons p rest ih =>
    obtain ⟨pn, pk⟩ := p
    rcases List.mem_cons.mp hmem with heq | hm
    · injection heq with e1 e2
      subst e1
      subst e2
      simp only [findIntersection, hrg]
      cases hgi : getKeyIfIntersection rg k with
      | none => exact absurd hgi hint
      | some key => simp [hgi]
    · cases h1 : alGet st.namespaces pn with
      | none =>
        simp only [findIntersection, h1]
        exact ih hm
      | some rg2 =>
        cases h2 : getKeyIfIntersection rg2 pk with
        | none =>
          simp only [findIntersection, h1, h2]
          exact ih hm
        | some key => simp [findIntersection, h1, h2]

/-- Concrete state with registries at `ns` and at `ns.q`. -/
def c7st : State := (register c5reg "ns.q").2

/-- **C7**: registering a namespace `ns.k` fails with
`NamespaceKeyIntersection` (and returns `null`) whenever the registry
at an ancestor `ns` owns a key literally named `k` (directly or
borrowed) and `ns.k` is not itself already registered; conversely,
direct assignment of a key whose full path equals an already-registered
namespace fails with `KeyNamespaceIntersection`, and so does `use`,
both for the borrowing key's own path and for a borrow target that is a
registered namespace. -/
theorem intersection_symmetry_spec :
    (∀ st ns k rg e, alGet st.namespaces ns = some rg →
      alGet rg.keyValue k = some e →
      alGet st.namespaces (ns ++ "." ++ k) = none →
      testNamespacePath (ns ++ "." ++ k) = true →
      register st (ns ++ "." ++ k) =
        (none, pushErr st (intersectionNsErr (ns ++ "." ++ k) rg.nspace k))) ∧
    (∀ f st rgNs key v loc rg2, testNamespacePath key = true →
      alGet st.namespaces (concatNamespaceWithKey (some rgNs) key) = some rg2 →
      setValue f st rgNs key v loc =
        some (false, pushErr st (intersectionErr (some rgNs) key rg2.nspace))) ∧
    ((use 5 c7st "ns" "q" "xx.yy").map (·.1) = some false ∧
     (use 5 c7st "ns" "q" "xx.yy").map (·.2.errors) =
       some (c7st.errors ++ [intersectionErr (some "ns") "q" "ns.q"])) ∧
    ((use 5 c7st "ns" "w" "ns.q").map (·.1) = some false ∧
     (use 5 c7st "ns" "w" "ns.q").map (·.2.errors) =
       some (c7st.errors ++ [intersectionErr none "ns.q" "ns.q"])) := by
  refine ⟨?_, ?_, ⟨by decide, by decide⟩, ⟨by decide, by decide⟩⟩
  · intro st ns k rg e h1 h2 h3 h4
    have hfi : (findIntersection st (splitKeyByNamespace (ns ++ "." ++ k))).isSome = true :=
      findIntersection_isSome (mem_splitKeyByNamespace_concat ns k) h1
        (getKeyIfIntersection_self h2)
    simp only [register, h3, h4, Bool.not_true, Bool.false_eq_true, if_false]
    cases hfi2 : findIntersection st (splitKeyByNamespace (ns ++ "." ++ k)) with
    | none => rw [hfi2] at hfi; simp at hfi
    | some pr =>
      obtain ⟨a, b⟩ := pr
      simp [intersectionNsErr, pushErr]
  · intro f st rgNs key v loc rg2 h1 h2
    simp only [setValue, h1, Bool.not_true, Bool.false_eq_true, if_false, checkFullKey, h2]

theorem intersection_symmetry_spec_witness :
    register c5st ("ns" ++ "." ++ "k") =
      (none, pushErr c5st (intersectionNsErr ("ns" ++ "." ++ "k")
        (⟨"ns", [("k", KeyEntry.direct [("en", "EN")])]⟩ : Registry).nspace "k")) ∧
    setValue 3 c7st "ns" "q" "v" "en" =
      some (false, pushErr c7st (intersectionErr (some "ns") "q"
        (⟨"ns.q", []⟩ : Registry).nspace)) :=
  ⟨intersection_symmetry_spec.1 c5st "ns" "k" ⟨"ns", [("k", KeyEntry.direct [("en", "EN")])]⟩
     (KeyEntry.direct [("en", "EN")]) rfl rfl (by decide) (by decide),
   intersection_symmetry_spec.2.1 3 c7st "ns" "q" "v" "en" ⟨"ns.q", []⟩ (by decide) rfl⟩

/-! ## Claim C3: the visited context bounds `findValue` recursion

Every admitted candidate appends a never-visited
`(registryNamespace, localKey)` pair to the context, and every pair is
drawn from the finite universe of registered-registry names crossed
with the suffixes of the initial key and of the stored borrow targets;
so fuel `|universe| + 1` always suffices. -/

/-- The `(registryNamespace, localKey)` pairs recorded in a visited map. -/
def pairsOfVisited : List (String × List String) → List (String × String)
  | [] => []
  | (n, ks) :: rest => (ks.map fun k => (n, k)) ++ pairsOfVisited rest

/-- The pairs recorded in a context. -/
def ctxPairs (ctx : Ctx) : List (String × String) :=
  pairsOfVisited ctx.visited

/-- The borrow targets stored in one key table. -/
def borrowsOfKV : List (String × KeyEntry) → List String
  | [] => []
  | (_, KeyEntry.borrow k) :: rest => k :: borrowsOfKV rest
  | _ :: rest => borrowsOfKV rest

/-- The borrow targets stored in a namespace table. -/
def borrowsOfNs : List (String × Registry) → List String
  | [] => []
  | (_, rg) :: rest => borrowsOfKV rg.keyValue ++ borrowsOfNs rest

/-- Every borrow target stored anywhere in the state. -/
def borrowTargets (st : State) : List String :=
  borrowsOfNs st.namespaces

/-- The suffix components of every split of the given keys. -/
def splitSuffixes : List String → List String
  | [] => []
  | k :: rest => (splitKeyByNamespace k).map Prod.snd ++ splitSuffixes rest

/-- Names of the registries stored in the state. -/
def nsUniverse (st : State) : Finset String :=
  (st.namespaces.map fun p => p.2.nspace).toFinset

/-- Suffixes reachable during a resolution that starts at `k0`. -/
def sufUniverse (st : State) (k0 : String) : Finset String :=
  (splitSuffixes (k0 :: borrowTargets st)).toFinset

/-- The finite set every visited pair is drawn from. -/
def pairUniverse (st : State) (k0 : String) : Finset (String × String) :=
  nsUniverse st ×ˢ sufUniverse st k0

/-- Sufficient fuel for `findValueFuel` on `k0` in `st`. -/
def findFuelBound (st : State) (k0 : String) : Nat :=
  (pairUniverse st k0).card + 1

/-- Invariant carried by the visited context during resolution. -/
def CtxInv (st : State) (k0 : String) (ctx : Ctx) : Prop :=
  (ctx.visited.map Prod.fst).Nodup ∧
  (ctxPairs ctx).toFinset ⊆ pairUniverse st k0

theorem pairsOfVisited_append (a b : List (String × List String)) :
    pairsOfVisited (a ++ b) = pairsOfVisited a ++ pairsOfVisited b := by
  induction a with
  | nil => rfl
  | cons p rest ih =>
    obtain ⟨n, ks⟩ := p
    simp [pairsOfVisited, ih]

theorem pairsOfVisited_fst_mem {v : List (String × List String)} {p : String × String}
    (h : p ∈ pairsOfVisited v) : p.1 ∈ v.map Prod.fst := by
  induction v with
  | nil => simp [pairsOfVisited] at h
  | cons q rest ih =>
    obtain ⟨n, ks⟩ := q
    simp only [pairsOfVisited, List.mem_append] at h
    rcases h with h | h
    · obtain ⟨k, -, rfl⟩ := List.mem_map.mp h
      simp
    · simp only [List.map_cons, List.mem_cons]
      exact Or.inr (ih h)

theorem alSet_append_of_none {α : Type} {l : List (String × α)} {k : String} (v : α)
    (h : alGet l k = none) : alSet l k v = l ++ [(k, v)] := by
  induction l with
  | nil => rfl
  | cons p rest ih =>
    by_cases hp : p.1 = k
    · simp [alGet, hp] at h
    · simp only [alGet, hp, beq_iff_eq, if_false] at h
      simp [alSet, hp, ih h]

theorem mem_borrowsOfKV {kv : List (String × KeyEntry)} {lk k2 : String}
    (h : (lk, KeyEntry.borrow k2) ∈ kv) : k2 ∈ borrowsOfKV kv := by
  induction kv with
  | nil => simp at h
  | cons p rest ih =>
    rcases List.mem_cons.mp h with heq | hm
    · rw [← heq]
      simp [borrowsOfKV]
    · obtain ⟨n, e⟩ := p
      cases e with
      | direct t => simpa [borrowsOfKV] using ih hm
      | borrow kb => simp [borrowsOfKV, ih hm]

theorem mem_borrowsOfNs {l : List (String × Registry)} {ns : String} {rg : Registry}
    {x : String} (h : (ns, rg) ∈ l) (hx : x ∈ borrowsOfKV rg.keyValue) :
    x ∈ borrowsOfNs l := by
  induction l with
  | nil => simp at h
  | cons p rest ih =>
    obtain ⟨n2, rg2⟩ := p
    rcases List.mem_cons.mp h with heq | hm
    · injection heq with e1 e2
      subst e2
      simp [borrowsOfNs, hx]
    · simp [borrowsOfNs, ih hm]

theorem borrow_mem_targets {st : State} {ns : String} {rg : Registry} {lk k2 : String}
    (h1 : alGet st.namespaces ns = some rg)
    (h2 : alGet rg.keyValue lk = some (KeyEntry.borrow k2)) :
    k2 ∈ borrowTargets st :=
  mem_borrowsOfNs (alGet_some_mem h1) (mem_borrowsOfKV (alGet_some_mem h2))

theorem mem_splitSuffixes {keys : List String} {k : String} (hk : k ∈ keys) :
    ∀ s ∈ (splitKeyByNamespace k).map Prod.snd, s ∈ splitSuffixes keys := by
  induction keys with
  | nil => simp at hk
  | cons q rest ih =>
    intro s hs
    rcases List.mem_cons.mp hk with rfl | hm
    · simp [splitSuffixes, hs]
    · simp [splitSuffixes, ih hm s hs]

theorem suffix_mem_sufUniverse {st : State} {k0 k : String}
    (hk : k = k0 ∨ k ∈ borrowTargets st) :
    ∀ pr ∈ splitKeyByNamespace k, pr.2 ∈ sufUniverse st k0 := by
  intro pr hpr
  have hmem : k ∈ k0 :: borrowTargets st := by
    rcases hk with rfl | h
    · exact List.mem_cons_self _ _
    · exact List.mem_cons_of_mem _ h
  exact List.mem_toFinset.mpr
    (mem_splitSuffixes hmem pr.2 (List.mem_map.mpr ⟨pr, hpr, rfl⟩))

theorem rg_nspace_mem {st : State} {ns : String} {rg : Registry}
    (h : alGet st.namespaces ns = some rg) : rg.nspace ∈ nsUniverse st :=
  List.mem_toFinset.mpr (List.mem_map.mpr ⟨(ns, rg), alGet_some_mem h, rfl⟩)

theorem pairs_alSet_push {v : List (String × List String)} {n : String} {ks : List String}
    (lk : String) (hnd : (v.map Prod.fst).Nodup) (hget : alGet v n = some ks) :
    (pairsOfVisited (alSet v n (ks ++ [lk]))).Perm ((n, lk) :: pairsOfVisited v) ∧
    ((n, lk) ∈ pairsOfVisited v ↔ lk ∈ ks) ∧
    (alSet v n (ks ++ [lk])).map Prod.fst = v.map Prod.fst := by
  induction v with
  | nil => simp [alGet] at hget
  | cons p rest ih =>
    obtain ⟨m, ms⟩ := p
    have hnd0 : m ∉ rest.map Prod.fst ∧ (rest.map Prod.fst).Nodup := by
      simpa [List.nodup_cons] using hnd
    by_cases hm : m = n
    · subst hm
      simp only [alGet, beq_self_eq_true, if_true, Option.some.injEq] at hget
      subst hget
      simp only [alSet, beq_self_eq_true, if_true]
      refine ⟨?_, ?_, by simp⟩
      · simp only [pairsOfVisited, List.map_append, List.map_cons, List.map_nil,
          List.append_assoc, List.singleton_append]
        exact List.perm_middle
      · constructor
        · intro hmem
          simp only [pairsOfVisited, List.mem_append] at hmem
          rcases hmem with hmem | hmem
          · obtain ⟨x, hx, he⟩ := List.mem_map.mp hmem
            injection he with e1 e2
            exact e2 ▸ hx
          · exact absurd (pairsOfVisited_fst_mem hmem) hnd0.1
        · intro hlk
          simp only [pairsOfVisited, List.mem_append]
          exact Or.inl (List.mem_map.mpr ⟨lk, hlk, rfl⟩)
    · simp only [alGet, hm, beq_iff_eq, if_false] at hget
      obtain ⟨ihp, ihm, ihk⟩ := ih hnd0.2 hget
      simp only [alSet, hm, beq_iff_eq, if_false]
      refine ⟨?_, ?_, by simp [ihk]⟩
      · simp only [pairsOfVisited]
        exact (List.Perm.append_left _ ihp).trans List.perm_middle
      · constructor
        · intro hmem
          simp only [pairsOfVisited, List.mem_append] at hmem
          rcases hmem with hmem | hmem
          · obtain ⟨x, -, he⟩ := List.mem_map.mp hmem
            injection he with e1 e2
            exact absurd e1 hm
          · exact ihm.mp hmem
        · intro hlk
          simp only [pairsOfVisited, List.mem_append]
          exact Or.inr (ihm.mpr hlk)

theorem visitUpdate_pairs {ctx : Ctx} {n lk : String} {ctx1 : Ctx}
    (hnd : (ctx.visited.map Prod.fst).Nodup)
    (h : visitUpdate ctx n lk = some ctx1) :
    (ctxPairs ctx1).Perm ((n, lk) :: ctxPairs ctx) ∧
    (n, lk) ∉ ctxPairs ctx ∧
    (ctx1.visited.map Prod.fst).Nodup := by
  cases hg : alGet ctx.visited n with
  | none =>
    simp only [visitUpdate, hg, Option.some.injEq] at h
    subst h
    have hap := alSet_append_of_none [lk] hg
    have hkeys := alGet_none_keys hg
    refine ⟨?_, ?_, ?_⟩
    · simp only [ctxPairs, hap, pairsOfVisited_append, pairsOfVisited, List.map_cons,
        List.map_nil, List.singleton_append, List.append_nil]
      exact List.perm_append_singleton _ _
    · intro hmem
      exact hkeys (pairsOfVisited_fst_mem hmem)
    · simp only [hap, List.map_append, List.map_cons, List.map_nil]
      refine List.Nodup.append hnd (List.nodup_singleton _) ?_
      intro a ha hb
      rw [List.mem_singleton] at hb
      subst hb
      exact hkeys ha
  | some ks =>
    simp only [visitUpdate, hg] at h
    by_cases hlk : ks.contains lk = true
    · rw [if_pos hlk] at h
      simp at h
    · simp only [hlk, Bool.false_eq_true, if_false, Option.some.injEq] at h
      subst h
      obtain ⟨hp, hiff, hkeys⟩ := pairs_alSet_push lk hnd hg
      refine ⟨hp, fun hmem => ?_, by simpa [hkeys] using hnd⟩
      have := hiff.mp hmem
      exact hlk (List.elem_iff.mpr this)

theorem ctxPairs_step {ctx ctx1 : Ctx} {n lk : String}
    (hperm : (ctxPairs ctx1).Perm ((n, lk) :: ctxPairs ctx))
    (hnot : (n, lk) ∉ ctxPairs ctx) :
    (ctxPairs ctx1).toFinset = insert (n, lk) (ctxPairs ctx).toFinset ∧
    (ctxPairs ctx1).toFinset.card = (ctxPairs ctx).toFinset.card + 1 := by
  have hfs : (ctxPairs ctx1).toFinset = ((n, lk) :: ctxPairs ctx).toFinset :=
    List.toFinset_eq_of_perm _ _ hperm
  rw [List.toFinset_cons] at hfs
  refine ⟨hfs, ?_⟩
  rw [hfs, Finset.card_insert_of_not_mem (by simpa using hnot)]

theorem findValue_fuel_sufficient (st : State) (locale k0 : String) : ∀ f : Nat,
    ∀ k ctx errs, (k = k0 ∨ k ∈ borrowTargets st) → CtxInv st k0 ctx →
    (pairUniverse st k0).card - (ctxPairs ctx).toFinset.card < f →
    findValueFuel f st locale k ctx errs ≠ none ∧
    ∀ res, findValueFuel f st locale k ctx errs = some res →
      CtxInv st k0 res.ctx ∧ (ctxPairs ctx).toFinset ⊆ (ctxPairs res.ctx).toFinset := by
  intro f
  induction f with
  | zero => exact fun k ctx errs _ _ hm => absurd hm (Nat.not_lt_zero _)
  | succ f ih =>
    have loop : ∀ l ctx errs, (∀ p ∈ l, p.2 ∈ sufUniverse st k0) → CtxInv st k0 ctx →
        (pairUniverse st k0).card - (ctxPairs ctx).toFinset.card ≤ f →
        findLoop (findValueFuel f st locale) st locale l ctx errs ≠ none ∧
        ∀ res, findLoop (findValueFuel f st locale) st locale l ctx errs = some res →
          CtxInv st k0 res.ctx ∧ (ctxPairs ctx).toFinset ⊆ (ctxPairs res.ctx).toFinset := by
      intro l
      induction l with
      | nil =>
        intro ctx errs _ hinv _
        refine ⟨by simp [findLoop], ?_⟩
        intro res hres
        simp only [findLoop, Option.some.injEq] at hres
        subst hres
        exact ⟨hinv, Finset.Subset.refl _⟩
      | cons p rest ihl =>
        intro ctx errs hsuf hinv hm
        obtain ⟨pn, pk⟩ := p
        have hsufrest : ∀ q ∈ rest, q.2 ∈ sufUniverse st k0 :=
          fun q hq => hsuf q (List.mem_cons_of_mem _ hq)
        cases hr : alGet st.namespaces pn with
        | none =>
          simp only [findLoop, hr]
          exact ihl ctx errs hsufrest hinv hm
        | some rg =>
          cases hv : visitUpdate ctx rg.nspace pk with
          | none =>
            simp only [findLoop, hr, hv]
            exact ihl _ _ hsufrest hinv hm
          | some ctx1 =>
            obtain ⟨hperm, hnot, hnd1⟩ := visitUpdate_pairs hinv.1 hv
            have hpairU : (rg.nspace, pk) ∈ pairUniverse st k0 :=
              Finset.mem_product.mpr ⟨rg_nspace_mem hr, hsuf (pn, pk) (List.mem_cons_self _ _)⟩
            obtain ⟨hfs, hcard⟩ := ctxPairs_step hperm hnot
            have hsub1 : (ctxPairs ctx1).toFinset ⊆ pairUniverse st k0 := by
              rw [hfs]
              exact Finset.insert_subset hpairU hinv.2
            have hinv1 : CtxInv st k0 ctx1 := ⟨hnd1, hsub1⟩
            have hcard_le : (ctxPairs ctx1).toFinset.card ≤ (pairUniverse st k0).card :=
              Finset.card_le_card hsub1
            have hm1 : (pairUniverse st k0).card - (ctxPairs ctx1).toFinset.card < f := by
              omega
            have hsubin : (ctxPairs ctx).toFinset ⊆ (ctxPairs ctx1).toFinset := by
              rw [hfs]
              exact Finset.subset_insert _ _
            simp only [findLoop, hr, hv]
            cases hkv : alGet rg.keyValue pk with
            | none =>
              simp only [rgGetValue, hkv]
              have hcont := ihl ctx1 errs hsufrest hinv1 (le_of_lt hm1)
              refine ⟨hcont.1, ?_⟩
              intro res hres
              obtain ⟨hi, hs⟩ := hcont.2 res hres
              exact ⟨hi, hsubin.trans hs⟩
            | some entry =>
              cases entry with
              | direct t =>
                simp only [rgGetValue, hkv]
                cases hsel : selectLocaleValue st.defaultLocale t locale with
                | none =>
                  simp only [hsel]
                  have hcont := ihl ctx1 errs hsufrest hinv1 (le_of_lt hm1)
                  refine ⟨hcont.1, ?_⟩
                  intro res hres
                  obtain ⟨hi, hs⟩ := hcont.2 res hres
                  exact ⟨hi, hsubin.trans hs⟩
                | some v =>
                  simp only [hsel]
                  by_cases htr : truthy v = true
                  · simp only [htr, if_true]
                    refine ⟨by simp, ?_⟩
                    intro res hres
                    simp only [Option.some.injEq] at hres
                    subst hres
                    exact ⟨hinv1, hsubin⟩
                  · simp only [Bool.not_eq_true] at htr
                    simp only [htr, Bool.false_eq_true, if_false]
                    have hcont := ihl ctx1 errs hsufrest hinv1 (le_of_lt hm1)
                    refine ⟨hcont.1, ?_⟩
                    intro res hres
                    obtain ⟨hi, hs⟩ := hcont.2 res hres
                    exact ⟨hi, hsubin.trans hs⟩
              | borrow k2 =>
                simp only [rgGetValue, hkv]
                have hk2 : k2 = k0 ∨ k2 ∈ borrowTargets st :=
                  Or.inr (borrow_mem_targets hr hkv)
                have hrec := ih k2 ctx1 errs hk2 hinv1 hm1
                cases hres2 : findValueFuel f st locale k2 ctx1 errs with
                | none => exact absurd hres2 hrec.1
                | some res2 =>
                  obtain ⟨hi2, hs2⟩ := hrec.2 res2 hres2
                  simp only [hres2]
                  cases hf2 : res2.found with
                  | some w =>
                    simp only [hf2]
                    refine ⟨by simp, ?_⟩
                    intro res hres
                    simp only [Option.some.injEq] at hres
                    subst hres
                    exact ⟨hi2, hsubin.trans hs2⟩
                  | none =>
                    simp only [hf2]
                    have hcard2 : (ctxPairs ctx1).toFinset.card ≤
                        (ctxPairs res2.ctx).toFinset.card := Finset.card_le_card hs2
                    have hm2 : (pairUniverse st k0).card -
                        (ctxPairs res2.ctx).toFinset.card ≤ f := by omega
                    have hcont := ihl res2.ctx res2.errs hsufrest hi2 hm2
                    refine ⟨hcont.1, ?_⟩
                    intro res hres
                    obtain ⟨hi3, hs3⟩ := hcont.2 res hres
                    exact ⟨hi3, hsubin.trans (hs2.trans hs3)⟩
    intro k ctx errs hk hinv hm
    exact loop (splitKeyByNamespace k) ctx errs (suffix_mem_sufUniverse hk) hinv
      (Nat.lt_succ_iff.mp hm)

/-- **C3**: for every resolver state — including states whose committed
borrow links form cyclic reference chains — and every full key and
locale, `findValue` run with a fresh `VisitContext` terminates: the
visited map alone bounds the recursion, since every admitted candidate
records a never-visited `(registry, localKey)` pair drawn from the
finite `pairUniverse` (registered registry names × suffixes of the
initial key and the stored borrow targets) and a revisited candidate is
skipped; hence the fuel `findFuelBound = pairUniverse.card + 1` is
never exhausted. -/
theorem findValue_termination_spec :
    ∀ st locale fullKey ns0 key0 errs,
      findValueFuel (findFuelBound st fullKey) st locale fullKey
        ⟨ns0, key0, [], false⟩ errs ≠ none := by
  intro st locale fullKey ns0 key0 errs
  refine (findValue_fuel_sufficient st locale fullKey (findFuelBound st fullKey) fullKey
    ⟨ns0, key0, [], false⟩ errs (Or.inl rfl) ⟨List.nodup_nil, ?_⟩ ?_).1
  · simp [ctxPairs, pairsOfVisited]
  · simp [findFuelBound, ctxPairs, pairsOfVisited]
